/-
Verification development for the ocrdesktop repository.

This file gives a shallow embedding, in Lean 4, of the parts of the
program that the specification talks about:

* `ocr.py`    — `OCRProcessor._process_ocr_words` and `OCRProcessor._clean_text`
                (text reconstruction from per-glyph OCR records);
* `color.py`  — `ColorDetector.get_color_string` and `ColorDetector._rgb_to_name`
                (dominant-color naming for a bounding box);
* `macro.py`  — `MacroManager.run_macro`, `get_macro_finished`, `wait_for_finish`,
                `load_macro_file`, `write_mouse_to_macro`,
                `_do_keyboard_step`, `_do_mouse_step` (event-log playback/recording);
* `gui.py`    — `OCRWindow._on_send_key` and `_thread_do_click`
                (send-key mode and pointer recording).

Strings are modelled as `List Char`.  Python regular-expression
substitutions are modelled by recursive functions that implement, for the
six concrete patterns appearing in `_clean_text`, exactly the
leftmost-match / greedy / non-overlapping scan semantics of `re.sub`.
Functions whose recursion is not structural take an explicit fuel
argument; the fuel is always instantiated with the length of the input,
which is an upper bound on the recursion depth, so the fuel-exhausted
fallback is unreachable and only serves termination.

Machine floats appearing in the source (`round(count / area * 100, 0)`)
are modelled by exact integer arithmetic (`roundHalfEvenInt`, round half
to even, the rounding mode of Python's `round`); the concrete inputs used
in the theorems below are exactly representable in binary floating point,
so the model and the float computation agree on them.
-/
import Mathlib

namespace Ocrdesktop

/-! Section: Python character classes -/

/-- The whitespace class of Python's `str` / `re` module (`\s`, `str.isspace`,
`str.strip`), restricted to the Latin-1 range.  (Further astral Unicode
space characters exist in Python; they play no role in the claims.) -/
def isPySpace (c : Char) : Bool :=
  c = ' ' ∨ c = '\t' ∨ c = '\n' ∨ c = '\r' ∨ c = '\x0b' ∨ c = '\x0c' ∨
  c = '\x1c' ∨ c = '\x1d' ∨ c = '\x1e' ∨ c = '\x1f' ∨ c = '\x85' ∨ c = '\xa0'

/-- The character class `[^\S\r\n]` of `_clean_text`: whitespace other than
newline and carriage return. -/
def isBlankNotNL (c : Char) : Bool :=
  isPySpace c ∧ ¬ c = '\n' ∧ ¬ c = '\r'

/-! Section: ocr.py — text reconstruction

`OCRProcessor._process_ocr_words` walks the per-glyph OCR records of one
image.  A glyph whose text is empty or whitespace-only is skipped.  Before
every emitted glyph except the first, one separator is emitted: a newline
if the `(page, block, paragraph, line)` tuple differs from the previously
emitted glyph's, a space otherwise.  A final newline terminates the text.
The word-list construction of `_process_ocr_words` (font size, color,
anchor point) does not feed back into the reconstructed text and is not
needed by the claims about the text, so it is not repeated here. -/

/-- One OCR glyph record (`ocr_words['text'][i]`, `page_num`, `block_num`,
`par_num`, `line_num`).  Tesseract ids are modelled as `Int`, matching the
`-1` sentinel used by the source for "no previous glyph". -/
structure OcrWord where
  text : List Char
  page : Int
  block : Int
  par : Int
  line : Int

/-- The glyph loop of `_process_ocr_words` (text accumulation only), with
the `last_*` state passed explicitly.  `lastLine = -1` encodes "nothing
emitted yet", exactly as in the source. -/
def processWordsGo : List OcrWord → Int → Int → Int → Int → List Char
  | [], _, _, _, _ => ['\n']
  | w :: rest, lastPage, lastBlock, lastPar, lastLine =>
    if w.text.all isPySpace then
      processWordsGo rest lastPage lastBlock lastPar lastLine
    else
      let sep : List Char :=
        if lastLine ≠ -1 then
          if lastPage ≠ w.page ∨ lastBlock ≠ w.block ∨ lastPar ≠ w.par ∨
              lastLine ≠ w.line then ['\n'] else [' ']
        else []
      sep ++ w.text ++ processWordsGo rest w.page w.block w.par w.line

/-- Model of `_process_ocr_words`: when there are no OCR boxes at all, the function
returns the empty text before the loop (no trailing newline); otherwise it
runs the glyph loop and appends the final newline. -/
def processOcrWordsText (ws : List OcrWord) : List Char :=
  match ws with
  | [] => []
  | _ :: _ => processWordsGo ws (-1) (-1) (-1) (-1)

/-! Section: The six `re.sub` passes of `_clean_text`

Each pass is a direct implementation of one substitution, with `re.sub`'s
scan semantics: find the leftmost match, with greedy (backtracking)
quantifiers, replace it, and continue scanning immediately after the
replaced segment. -/

/-- Index (from the front) of the last `'\n'` in `t`; meaningful only when
`'\n' ∈ t`.  Used to resolve the greedy `\s*` before a final `\n`. -/
def lastNLIdx (t : List Char) : Nat :=
  t.length - 1 - t.reverse.indexOf '\n'

/-- Pass 1, `[^\S\r\n]{2,}` ↦ `' '`: every maximal run of two or more
newline-free, CR-free whitespace characters becomes a single space. -/
def collapseBlanksGo : Nat → List Char → List Char
  | 0, l => l
  | _ + 1, [] => []
  | fuel + 1, c :: rest =>
    if isBlankNotNL c then
      match rest.takeWhile isBlankNotNL with
      | [] => c :: collapseBlanksGo fuel rest
      | _ :: _ => ' ' :: collapseBlanksGo fuel (rest.dropWhile isBlankNotNL)
    else c :: collapseBlanksGo fuel rest

/-- Pass 2, `\n\s*\n` ↦ `'\n'`: a newline, then whitespace up to a later
newline (the last one reachable through whitespace, by greediness),
becomes a single newline. -/
def dropEmptyLinesGo : Nat → List Char → List Char
  | 0, l => l
  | _ + 1, [] => []
  | fuel + 1, c :: rest =>
    if c = '\n' then
      let t := rest.takeWhile isPySpace
      if '\n' ∈ t then
        '\n' :: dropEmptyLinesGo fuel (rest.drop (lastNLIdx t + 1))
      else c :: dropEmptyLinesGo fuel rest
    else c :: dropEmptyLinesGo fuel rest

/-- Pass 3, `\s*\n` ↦ `'\n'`: a whitespace run containing a newline is
replaced, up to its last newline, by a single newline (whitespace after
the last newline of the run survives). -/
def dropSpacesBeforeNLGo : Nat → List Char → List Char
  | 0, l => l
  | _ + 1, [] => []
  | fuel + 1, c :: rest =>
    if isPySpace c then
      let run := c :: rest.takeWhile isPySpace
      if '\n' ∈ run then
        '\n' :: dropSpacesBeforeNLGo fuel ((c :: rest).drop (lastNLIdx run + 1))
      else
        run ++ dropSpacesBeforeNLGo fuel (rest.dropWhile isPySpace)
    else c :: dropSpacesBeforeNLGo fuel rest

/-- Pass 4, `^\s` ↦ `'\n'` (no MULTILINE): a single leading whitespace
character is replaced by a newline.  (The source comment says "remove",
but the replacement string is a newline.) -/
def replaceLeadingSpace (l : List Char) : List Char :=
  match l with
  | [] => []
  | c :: rest => if isPySpace c then '\n' :: rest else c :: rest

/-- Pass 5, `$\n` ↦ `""`: in Python, `$` also matches just before a
newline that ends the string, so this deletes a final newline (only). -/
def dropFinalNewline (l : List Char) : List Char :=
  if l.getLast? = some '\n' then l.dropLast else l

/-- Pass 6, `\n\s` ↦ `'\n'`: one whitespace character directly after a
newline is deleted (non-overlapping single pass). -/
def dropSpaceAfterNLGo : Nat → List Char → List Char
  | 0, l => l
  | _ + 1, [] => []
  | _ + 1, [c] => [c]
  | fuel + 1, c :: d :: rest =>
    if c = '\n' then
      if isPySpace d then '\n' :: dropSpaceAfterNLGo fuel rest
      else '\n' :: dropSpaceAfterNLGo fuel (d :: rest)
    else c :: dropSpaceAfterNLGo fuel (d :: rest)

/-- Model of `OCRProcessor._clean_text`: the six substitutions in source order,
then `text = text[:-1]` on a non-empty result (which drops the last
remaining character, the final newline having already been removed by the
`$\n` pass). -/
def cleanText (l : List Char) : List Char :=
  let t1 := collapseBlanksGo l.length l
  let t2 := dropEmptyLinesGo t1.length t1
  let t3 := dropSpacesBeforeNLGo t2.length t2
  let t4 := replaceLeadingSpace t3
  let t5 := dropFinalNewline t4
  let t6 := dropSpaceAfterNLGo t5.length t5
  if t6 = [] then [] else t6.dropLast

/-- The reconstruction pipeline for one image: per-glyph processing
followed by the cleanup pass (`process_images` concatenates per-image
texts and calls `_clean_text` once; for a single image this is exactly
`_clean_text (_process_ocr_words …)`). -/
def pipelineText (ws : List OcrWord) : List Char :=
  cleanText (processOcrWordsText ws)

/-! Section: The invariant claimed by the specification for `ReconstructedText`
(stated from the claim's words, to be checked against the code). -/

/-- No two consecutive characters are both non-newline whitespace. -/
def noDoubleBlank : List Char → Bool
  | [] => true
  | [_] => true
  | c :: d :: rest =>
    (¬ ((isPySpace c ∧ ¬ c = '\n') ∧ (isPySpace d ∧ ¬ d = '\n'))) &&
      noDoubleBlank (d :: rest)

/-- The newline-separated segments of a string. -/
def linesOf : List Char → List (List Char)
  | [] => [[]]
  | c :: rest =>
    match linesOf rest with
    | [] => [[c]]
    | g :: gs => if c = '\n' then [] :: g :: gs else (c :: g) :: gs

/-- The property claimed for `ReconstructedText`: no two consecutive
non-newline whitespace characters, no blank (empty) line — in particular
no leading or trailing blank line — and no trailing newline. -/
def reconstructedTextInvariant (s : List Char) : Bool :=
  noDoubleBlank s && (s = [] ∨ (linesOf s).all (fun g => ¬ g = [])) &&
    (¬ s.getLast? = some '\n')

/-! Section: macro.py — event-log recording and playback

The event log is a text file; it is modelled as the list of its lines
(each line a `List Char`, without the terminating newline, which
`line.strip()` would discard anyway).  The static keysym table
`KEY_CODE` lives in `constants.py`; it is an input of the model
(`keyTable`), since no claim depends on its contents. -/

/-- Synthetic input events injected through `pyatspi.Registry`. -/
inductive AtspiEvent where
  /-- Model of `time.sleep(seconds)` for a `c,delay,…` line, with the parsed value. -/
  | sleep (seconds : ℚ)
  /-- Model of `generateKeyboardEvent(key_value, key_string, …)` with phase
  0 = press, 1 = release, 2 = press-release. -/
  | key (keyValue : Int) (keyString : List Char) (phase : Int)
  /-- Model of `generateMouseEvent(x, y, kind)`; `kind` is `"abs"` for a move or a
  button string such as `"b1c"`. -/
  | mouse (x y : Int) (kind : List Char)
deriving DecidableEq

/-- Python `str.split(',')` (the separator is non-empty, so the result is
the comma-separated fields; splitting the empty string gives `[""]`). -/
def splitOnComma : List Char → List (List Char)
  | [] => [[]]
  | c :: rest =>
    match splitOnComma rest with
    | [] => [[c]]
    | g :: gs => if c = ',' then [] :: g :: gs else (c :: g) :: gs

/-- Python `str.strip()`: surrounding whitespace removed. -/
def pyStrip (l : List Char) : List Char :=
  ((l.dropWhile isPySpace).reverse.dropWhile isPySpace).reverse

/-- Digit-string value, `none` unless the string is non-empty and all
decimal digits. -/
def digitsVal : List Char → Option ℕ
  | [] => none
  | [c] => if c.isDigit then some (c.toNat - '0'.toNat) else none
  | c :: d :: rest =>
    match digitsVal (d :: rest), (if c.isDigit then some (c.toNat - '0'.toNat) else none) with
    | some v, some h => some (h * 10 ^ (d :: rest).length + v)
    | _, _ => none

/-- Python `int(s)`: surrounding whitespace, an optional sign, then
decimal digits.  (Underscore digit grouping and non-ASCII digits, which
Python also accepts, are not modelled; no claim depends on them.) -/
def pyInt? (l : List Char) : Option Int :=
  match pyStrip l with
  | '-' :: rest => (digitsVal rest).map (fun n => -(n : Int))
  | '+' :: rest => (digitsVal rest).map (fun n => (n : Int))
  | rest => (digitsVal rest).map (fun n => (n : Int))

/-- Mantissa/exponent forms accepted by Python `float(s)` after the sign:
`d+`, `d+.d*`, `.d+`, each optionally followed by `(e|E)[±]d+`.
(`inf`/`nan` spellings are not modelled; no claim depends on them.) -/
def pyFloatMantissa (l : List Char) : Option ℚ :=
  let intPart := l.takeWhile Char.isDigit
  let rest := l.dropWhile Char.isDigit
  match rest with
  | [] => if intPart = [] then none else (digitsVal intPart).map (fun n => (n : ℚ))
  | '.' :: frac =>
    if ¬ frac.all Char.isDigit then none
    else if intPart = [] ∧ frac = [] then none
    else
      let ip : ℚ := ((digitsVal intPart).getD 0 : ℕ)
      let fp : ℚ := ((digitsVal frac).getD 0 : ℕ)
      some (ip + fp / (10 : ℚ) ^ frac.length)
  | _ => none

/-- Python `float(s)` on finite decimal literals. -/
def pyFloat? (l : List Char) : Option ℚ :=
  let core : List Char → Option ℚ := fun m =>
    match m.indexOf? 'e', m.indexOf? 'E' with
    | none, none => pyFloatMantissa m
    | _, _ =>
      let mant := m.takeWhile (fun c => ¬ c = 'e' ∧ ¬ c = 'E')
      let ex := (m.dropWhile (fun c => ¬ c = 'e' ∧ ¬ c = 'E')).drop 1
      match pyFloatMantissa mant, pyInt? ex with
      | some v, some e =>
        some (if 0 ≤ e then v * (10 : ℚ) ^ e.toNat else v / (10 : ℚ) ^ (-e).toNat)
      | _, _ => none
  match pyStrip l with
  | '-' :: rest => (core rest).map (fun q => -q)
  | '+' :: rest => core rest
  | rest => core rest

/-- Model of `MacroManager._do_keyboard_step`: keycode 0 with a non-empty symbol is
resolved through the `KEY_CODE` table (defaulting to 0); keycode 0 with an
empty symbol is skipped; an unknown phase id generates nothing. -/
def doKeyboardStep (keyTable : List Char → Option Int)
    (keyValue : Int) (keyString : List Char) (eventType : Int) : List AtspiEvent :=
  let gen : Int → List AtspiEvent := fun v =>
    if eventType = 0 ∨ eventType = 1 ∨ eventType = 2 then
      [.key v keyString eventType]
    else []
  if keyValue = 0 then
    if ¬ keyString = [] then gen ((keyTable keyString).getD 0) else []
  else gen keyValue

/-- Model of `MacroManager._do_mouse_step`: an absolute move, then — unless the
event field is the literal `None` — the button event itself. -/
def doMouseStep (x y : Int) (mouseEvent : List Char) : List AtspiEvent :=
  [.mouse x y ("abs".toList)] ++
    (if ¬ mouseEvent = "None".toList then [.mouse x y mouseEvent] else [])

/-- One iteration of the `run_macro` line loop: strip, split on commas,
dispatch on the first field.  `Except.error` marks an uncaught Python
exception (`IndexError` from a missing field, `ValueError` from a failed
`int`/`float` conversion); a first field other than `c`/`k`/`m`, or a `c`
line whose second field is not `delay`, falls through all branches and is
silently skipped. -/
def parseLine (keyTable : List Char → Option Int) (line : List Char) :
    Except (List Char) (List AtspiEvent) :=
  match splitOnComma (pyStrip line) with
  | [] => .ok []
  | p0 :: rest =>
    if p0 = "c".toList then
      match rest with
      | [] => .error ("IndexError: list index out of range".toList)
      | p1 :: rest2 =>
        if p1 = "delay".toList then
          match rest2 with
          | [] => .error ("IndexError: list index out of range".toList)
          | p2 :: _ =>
            match pyFloat? p2 with
            | some q => .ok [.sleep q]
            | none => .error ("ValueError: could not convert string to float".toList)
        else .ok []
    else if p0 = "k".toList then
      match rest with
      | p1 :: p2 :: p3 :: _ =>
        match pyInt? p1, pyInt? p3 with
        | some kv, some et => .ok (doKeyboardStep keyTable kv p2 et)
        | _, _ => .error ("ValueError: invalid literal for int".toList)
      | _ => .error ("IndexError: list index out of range".toList)
    else if p0 = "m".toList then
      match rest with
      | p1 :: p2 :: p3 :: _ =>
        match pyInt? p1, pyInt? p2 with
        | some x, some y => .ok (doMouseStep x y p3)
        | _, _ => .error ("ValueError: invalid literal for int".toList)
      | _ => .error ("IndexError: list index out of range".toList)
    else .ok []

/-- The `_macro_finished` flag of `MacroManager`. -/
structure MacroFlag where
  finished : Bool
deriving DecidableEq

/-- Model of `MacroManager.get_macro_finished`. -/
def getMacroFinished (m : MacroFlag) : Bool :=
  m.finished

/-- Outcome of `run_macro`: the events injected (in order), the
`_macro_finished` flag on exit, and the uncaught exception, if any. -/
structure RunOutcome where
  events : List AtspiEvent
  flag : MacroFlag
  error : Option (List Char)
deriving DecidableEq

/-- The line loop of `run_macro`: lines are processed in order; an
uncaught exception aborts the loop (leaving `_macro_finished` false);
reaching the end of the file sets `_macro_finished := true`. -/
def runLinesGo (keyTable : List Char → Option Int) :
    List (List Char) → List AtspiEvent → RunOutcome
  | [], acc => ⟨acc, ⟨true⟩, none⟩
  | l :: ls, acc =>
    match parseLine keyTable l with
    | .ok evs => runLinesGo keyTable ls (acc ++ evs)
    | .error e => ⟨acc, ⟨false⟩, some e⟩

/-- Model of `MacroManager.run_macro`: if no macro file exists, return at once
(flag unchanged, nothing injected); otherwise clear the flag and play the
file's lines. -/
def runMacroFile (keyTable : List Char → Option Int) (macroFileExists : Bool)
    (lines : List (List Char)) (flag0 : MacroFlag) : RunOutcome :=
  if macroFileExists then runLinesGo keyTable lines []
  else ⟨[], flag0, none⟩

/-- Model of `MacroManager.wait_for_finish`, polling loop: `obs i` is the pair
`(get_macro_finished(), macro_exists())` observed at the i-th check (the
two values may change concurrently).  Returns the index of the check at
which the loop exited, or `none` if it never exits within `fuel` checks. -/
def waitLoopExit (obs : ℕ → Bool × Bool) : ℕ → ℕ → Option ℕ
  | _, 0 => none
  | i, fuel + 1 =>
    if (obs i).1 = false ∧ (obs i).2 = true then waitLoopExit obs (i + 1) fuel
    else some i

/-- Model of `MacroManager.wait_for_finish`: after the polling loop exits (whether
because the flag was observed true or because the macro file vanished),
the final `self._macro_finished = False` assignment runs unconditionally. -/
def waitForFinish (obs : ℕ → Bool × Bool) (fuel : ℕ) : Option MacroFlag :=
  (waitLoopExit obs 0 fuel).map (fun _ => ⟨false⟩)

/-- The fixed location of the active macro file
(`os.path.expanduser('~') + '/.activeOCRMacro.ocrm'`). -/
def macroFilePath : List Char :=
  "~/.activeOCRMacro.ocrm".toList

/-- Model of `MacroManager.load_macro_file` over a file-system model `fs` mapping a
path to the content of the regular file there (`none` when
`os.path.exists and os.path.isfile` is false).  The copy happens only when
the source passes that check and is not already the active file. -/
def loadMacroFile (fs : List Char → Option (List Char)) (macroPath : List Char) :
    List Char → Option (List Char) :=
  if (fs macroPath).isSome then
    if ¬ macroPath = macroFilePath then
      fun q => if q = macroFilePath then fs macroPath else fs q
    else fs
  else fs

/-- Model of `MacroManager.write_mouse_to_macro`: the two lines appended to the
event log for one pointer action. -/
def writeMouseToLogLines (x y : Int) (mouseEvent : List Char) : List (List Char) :=
  ["c,delay,0.9".toList,
   "m,".toList ++ (toString x).toList ++ [','] ++ (toString y).toList ++ [','] ++ mouseEvent]

/-- Model of `MacroManager.write_keyboard_to_macro`: the single line appended for
one key event.  `pyatspi.KEY_PRESS/KEY_RELEASE/KEY_PRESSRELEASE` are
0/1/2, and any other value is written through unchanged, so the mapping
at the head of the source function is the identity on the ids the GUI
passes. -/
def writeKeyboardToLogLine (keyValue : Int) (keyString : List Char) (eventTypeId : Int) :
    List Char :=
  "k,".toList ++ (toString keyValue).toList ++ [','] ++ keyString ++ [','] ++
    (toString eventTypeId).toList

/-! Section: gui.py — send-key mode and pointer recording -/

/-- The pieces of `OCRWindow` state that `_on_send_key`,
`_send_key_mode` and `_thread_do_click` read or write.  `log` is the
event-log file content (lines) and `injected` the synthetic events sent
to the live interface; both only ever grow. -/
structure GuiState where
  /-- Whether `self._macro` is not `None`. -/
  macroPresent : Bool
  /-- The `self._save_to_macro` preclick/armed toggle. -/
  armedToMacro : Bool
  /-- The `self._keyboard_overlay_active` flag. -/
  keyboardOverlayActive : Bool
  /-- Whether the keystroke listener is registered. -/
  listenerRegistered : Bool
  log : List (List Char)
  injected : List AtspiEvent
deriving DecidableEq

/-- Classification of `event.type` in `_on_send_key`. -/
inductive KeyEvType where
  | pressed
  | released
  | other
deriving DecidableEq

/-- A key event delivered to the send-key listener. -/
structure KeyEv where
  type : KeyEvType
  string : List Char
deriving DecidableEq

/-- The `event_type_id` computed by `_on_send_key`. -/
def sendKeyEventTypeId (t : KeyEvType) : Int :=
  match t with
  | .pressed => 0
  | .released => 1
  | .other => 2

/-- Model of `OCRWindow._send_key_mode`: sets the overlay flag and registers the
global keystroke listener. -/
def sendKeyMode (st : GuiState) : GuiState :=
  { st with keyboardOverlayActive := true, listenerRegistered := true }

/-- Model of `OCRWindow._on_send_key`: an F4 *press* clears the overlay flag and
deregisters the listener; every other event (press of another key,
any release, any other type) is written to the event log through
`write_keyboard_to_macro(0, event.event_string, event_type_id)` whenever
`self._macro` is set — the armed flag `_save_to_macro` is not consulted,
and no key is injected into the live interface (the handler returns True,
consuming the event). -/
def onSendKey (st : GuiState) (ev : KeyEv) : GuiState :=
  if ev.type = .pressed ∧ ev.string = "F4".toList then
    { st with keyboardOverlayActive := false, listenerRegistered := false }
  else
    if st.macroPresent then
      { st with
          log := st.log ++ [writeKeyboardToLogLine 0 ev.string (sendKeyEventTypeId ev.type)] }
    else st

/-- Model of `OCRWindow._thread_do_click`: armed with a macro manager present, the
pointer action is appended to the event log via `write_mouse_to_macro`;
otherwise it is injected live after the settle delay by a single
`generateMouseEvent(x, y, mouse_event)` call. -/
def threadDoClick (st : GuiState) (x y : Int) (mouseEvent : List Char) : GuiState :=
  if st.armedToMacro ∧ st.macroPresent then
    { st with log := st.log ++ writeMouseToLogLines x y mouseEvent }
  else
    { st with injected := st.injected ++ [.mouse x y mouseEvent] }

/-! Section: color.py — dominant-color naming

`ColorDetector.get_color_string` crops the word's bounding box out of the
(PIL) image, tallies pixels by exact RGB value (in first-occurrence
order, as a Python dict), maps each value to its nearest reference color
name and accumulates the counts per name, sorts the names by count
descending (Python's stable sort), and prints the top `max_colors` names
with rounded percentages of the box area, dropping entries that round
to 0.  Everything inside the `try` block that can raise — a bad index
into the box dict, a crop box Pillow rejects, a nearest-neighbour query
against an empty palette — is modelled by `Option`; `none` is the
exception caught by the `except` handler.  The per-value memoisation of
`_rgb_to_name` (`_color_cache`) only caches a deterministic function and
is semantically transparent, so it is not repeated. -/

/-- An exact RGB pixel value. -/
abbrev RGB := ℕ × ℕ × ℕ

/-- A raster image: dimensions plus pixel lookup (coordinates inside the
bounds). -/
structure PImage where
  width : ℕ
  height : ℕ
  pix : ℕ → ℕ → RGB

/-- A pixel read through `Image.crop`: coordinates outside the source
image are padded with zeros (black), as PIL does. -/
def cropPixel (img : PImage) (x y : Int) : RGB :=
  if 0 ≤ x ∧ x < (img.width : Int) ∧ 0 ≤ y ∧ y < (img.height : Int) then
    img.pix x.toNat y.toNat
  else (0, 0, 0)

/-- Model of `img.crop((left, top, left+width, top+height))` followed by
`getdata()`: the box's pixels in row-major order. -/
def cropData (img : PImage) (left top : Int) (w h : ℕ) : List RGB :=
  ((List.range h).map
    (fun j => (List.range w).map (fun i => cropPixel img (left + i) (top + j)))).flatten

/-- The OCR box-geometry columns of the results dict used by
`get_color_string` (`box['width'] / ['height'] / ['left'] / ['top']`). -/
structure BoxData where
  width : List Int
  height : List Int
  left : List Int
  top : List Int

/-- The reference palette (external data: `CSS3_HEX_TO_NAMES`, already
converted to RGB), in dict iteration order. -/
abbrev Palette := List (List Char × RGB)

/-- Squared euclidean RGB distance (the metric of the `KDTree` query). -/
def sqDist (a b : RGB) : ℤ :=
  ((a.1 : ℤ) - b.1) * ((a.1 : ℤ) - b.1) +
  ((a.2.1 : ℤ) - b.2.1) * ((a.2.1 : ℤ) - b.2.1) +
  ((a.2.2 : ℤ) - b.2.2) * ((a.2.2 : ℤ) - b.2.2)

/-- Model of `_rgb_to_name`: the name of the nearest reference color (first match
wins on ties, the index order of the KD-tree build); `none` on an empty
palette (where `KDTree` construction raises). -/
def nearestName (pal : Palette) (c : RGB) : Option (List Char) :=
  match pal with
  | [] => none
  | p :: ps =>
    some (ps.foldl (fun best q => if sqDist q.2 c < sqDist best.2 c then q else best) p).1

/-- The elements of `l` in first-occurrence order (iteration order of a
Python dict keyed by them): the head, then the later distinct elements in
the order they first appear. -/
def firstOcc : List RGB → List RGB
  | [] => []
  | x :: xs => x :: (firstOcc xs).filter (fun y => ¬ y = x)

/-- Model of `by_color`: pixel count per exact RGB value, in first-occurrence
order. -/
def tallyColors (l : List RGB) : List (RGB × ℕ) :=
  (firstOcc l).map (fun x => (x, l.count x))

/-- Model of `defaultdict(int)` accumulation: add `v` to the entry of `k`,
appending a new entry if the key is absent. -/
def addCount (acc : List (List Char × ℕ)) (k : List Char) (v : ℕ) :
    List (List Char × ℕ) :=
  match acc with
  | [] => [(k, v)]
  | (k', v') :: rest =>
    if k' = k then (k', v' + v) :: rest else (k', v') :: addCount rest k v

/-- Model of `by_color_name`: fold the per-value counts through `_rgb_to_name`,
accumulating counts per name; fails on an empty palette. -/
def buildByColorName (pal : Palette) :
    List (RGB × ℕ) → List (List Char × ℕ) → Option (List (List Char × ℕ))
  | [], acc => some acc
  | (c, n) :: rest, acc =>
    match nearestName pal c with
    | none => none
    | some nm => buildByColorName pal rest (addCount acc nm n)

/-- Stable insertion (descending by count): a new element goes after every
earlier element with a count `≥` its own, matching the equal-keys order of
Python's stable `sorted(…, key=count, reverse=True)`. -/
def insertByCountDesc (x : List Char × ℕ) :
    List (List Char × ℕ) → List (List Char × ℕ)
  | [] => [x]
  | y :: ys => if x.2 < y.2 then y :: insertByCountDesc x ys else x :: y :: ys

/-- Model of `sorted(by_color_name.items(), key=…item[1]…, reverse=True)`. -/
def sortByCountDesc : List (List Char × ℕ) → List (List Char × ℕ)
  | [] => []
  | x :: xs => insertByCountDesc x (sortByCountDesc xs)

/-- Python's `round(a / b)` for integers `a`, `b` with `b > 0`: round half
to even (the IEEE/Python rounding of `round`), in exact integer
arithmetic.  `a / b` in the source is a float; the concrete inputs used
below are exactly representable, where the float and the rational
computation agree. -/
def roundHalfEvenInt (a b : ℤ) : ℤ :=
  let f := a / b
  let r2 := 2 * (a % b)
  if r2 < b then f else if b < r2 then f + 1 else if f % 2 = 0 then f else f + 1

/-- The output loop of `get_color_string` over the top entries of the
sorted name list: builds the output fragments and, alongside, the list of
percentages actually reported.  `area` is `width * height`; when it is
non-zero an entry is printed as `"<name>: <percent> %, "` and only if its
rounded percentage is positive; when the area is zero the raw pixel count
is printed instead.  The count is re-read from `by_color_name` (a dict
lookup in the source). -/
def colorLoop (area : Int) (bcn : List (List Char × ℕ)) :
    List (List Char × ℕ) → List Char × List ℤ
  | [] => ([], [])
  | p :: rest =>
    let tail := colorLoop area bcn rest
    match bcn.lookup p.1 with
    | none => tail
    | some count =>
      if ¬ area = 0 then
        let percent := roundHalfEvenInt ((count : ℤ) * 100) area
        if 0 < percent then
          (p.1 ++ ": ".toList ++ (toString percent).toList ++ " %, ".toList ++ tail.1,
           percent :: tail.2)
        else tail
      else
        (p.1 ++ ": ".toList ++ (toString count).toList ++ " pixel, ".toList ++ tail.1,
         tail.2)

/-- The `try` block of `get_color_string`: box lookups, crop, tally,
name accumulation, sort, output loop, and the final
`color_str[:-2] if color_str else 'unknown'`.  The returned pair is the
output string and the reported percentage list.  `none` is an exception
reaching the `except` handler (bad index, inverted crop box, empty
palette). -/
def colorReport (pal : Palette) (maxColors : Int) (box : BoxData) (index : ℕ)
    (img : PImage) : Option (List Char × List ℤ) :=
  match box.width.get? index, box.height.get? index,
      box.left.get? index, box.top.get? index with
  | some w, some h, some left, some top =>
    if 0 ≤ w ∧ 0 ≤ h then
      let pixels := cropData img left top w.toNat h.toNat
      match buildByColorName pal (tallyColors pixels) [] with
      | none => none
      | some bcn =>
        let colorList := sortByCountDesc bcn
        let tops := colorList.take (min maxColors.toNat colorList.length)
        let out := colorLoop (w * h) bcn tops
        some (if out.1 = [] then ("unknown".toList) else out.1.dropLast.dropLast, out.2)
    else none
  | _, _, _, _ => none

/-- Model of `ColorDetector.get_color_string`: the guard chain before the `try`
block (`self._enabled`, `scipy_available`, `webcolors_available`,
`self._max_colors < 1`, `not img or not box`), then the `try` body with
every failure degraded to `"unknown"`. -/
def getColorString (enabled scipyAvailable webcolorsAvailable : Bool)
    (maxColors : Int) (pal : Palette) (box : Option BoxData) (index : ℕ)
    (img : Option PImage) : List Char :=
  if enabled = false then ("unknown".toList)
  else if scipyAvailable = false then ("unknown".toList)
  else if webcolorsAvailable = false then ("unknown".toList)
  else if maxColors < 1 then ("unknown".toList)
  else
    match img, box with
    | some i, some b =>
      match colorReport pal maxColors b index i with
      | some out => out.1
      | none => ("unknown".toList)
    | _, _ => ("unknown".toList)


/-! Section: Theorems

Helper lemmas first, then one theorem per claim (with its witness or
counterexample where required). -/

/-- If every line of the log parses without an uncaught exception, the
line loop runs to the end of the file, injects events only, and sets the
finished flag. -/
theorem runLinesGo_all_ok (keyTable : List Char → Option Int) :
    ∀ (lines : List (List Char)) (acc : List AtspiEvent),
      (∀ l ∈ lines, (parseLine keyTable l).isOk = true) →
      (runLinesGo keyTable lines acc).error = none ∧
      (runLinesGo keyTable lines acc).flag = ⟨true⟩ := by
  intro lines
  induction lines with
  | nil => intro acc _; exact ⟨rfl, rfl⟩
  | cons l ls ih =>
    intro acc h
    have hl := h l (List.mem_cons_self l ls)
    cases hpl : parseLine keyTable l with
    | ok evs =>
      simpa [runLinesGo, hpl] using
        ih (acc ++ evs) (fun l' hl' => h l' (List.mem_cons_of_mem l hl'))
    | error e => rw [hpl] at hl; simp [Except.isOk, Except.toBool] at hl

/-- The polling loop of `wait_for_finish` only exits at a check where the
finished flag reads true or the macro file is gone. -/
theorem waitLoopExit_reason (obs : ℕ → Bool × Bool) :
    ∀ (fuel start i : ℕ), waitLoopExit obs start fuel = some i →
      (obs i).1 = true ∨ (obs i).2 = false := by
  intro fuel
  induction fuel with
  | zero => intro start i h; simp [waitLoopExit] at h
  | succ n ih =>
    intro start i h
    by_cases hc : (obs start).1 = false ∧ (obs start).2 = true
    · rw [waitLoopExit, if_pos hc] at h
      exact ih (start + 1) i h
    · rw [waitLoopExit, if_neg hc] at h
      cases h
      by_cases h1 : (obs start).1 = true
      · exact Or.inl h1
      · refine Or.inr ?_
        by_cases h2 : (obs start).2 = false
        · exact h2
        · exact absurd ⟨by simpa using h1, by simpa using h2⟩ hc

/-- C1.  The specification's example claims that the glyphs
`[("Hello", p1, b1, par1, l1), ("World", p1, b1, par1, l2)]` reconstruct
to `"Hello\nWorld"`.  The code disagrees: `_clean_text` first deletes the
final newline with the `$\n` substitution (in Python, `$` matches just
before a string-final newline) and then unconditionally drops one more
character with `text[:-1]`, so the pipeline returns `"Hello\nWorl"` —
the last character of the recognized text is lost.  This contradicts the
function's own stated intent (its comments describe only whitespace
normalisation and removal of the ending newline), so the claim is taken
as correct and the double trailing-removal as a code bug.  This theorem
evaluates the embedded pipeline at the claimed input. -/
theorem C1_pipeline_drops_last_character :
    pipelineText [⟨"Hello".toList, 1, 1, 1, 1⟩, ⟨"World".toList, 1, 1, 1, 2⟩]
      = "Hello\nWorl".toList := by decide

/-- C2.  The claimed invariant — no two consecutive non-newline
whitespace characters, no blank line, no trailing newline — fails on the
code: for the single glyph `" a"` (kept, since it is not whitespace-only)
the pipeline produces the string `"\n"`, which is a blank line and a
trailing newline.  (The `^\s` pass *replaces* a leading whitespace
character by a newline rather than removing it, and the final `text[:-1]`
then deletes the remaining letter.)  The invariant is clearly the
cleanup's intent, so this is recorded as a code bug.  This theorem
evaluates the pipeline at the failing input and checks the invariant
predicate against it. -/
theorem C2_invariant_violated :
    pipelineText [⟨" a".toList, 1, 1, 1, 1⟩] = "\n".toList ∧
    reconstructedTextInvariant (pipelineText [⟨" a".toList, 1, 1, 1, 1⟩]) = false := by
  decide

/-- C4 counterexample.  The claim says a malformed log line is skipped
and `run_macro` never raises.  But for the one-line log `"c"`,
`parts = ['c']` and the access `parts[1]` raises an uncaught
`IndexError`, aborting playback with the finished flag still false. -/
theorem C4_counterexample_malformed_line_raises :
    runMacroFile (fun _ => none) true ["c".toList] ⟨false⟩
      = ⟨[], ⟨false⟩, some ("IndexError: list index out of range".toList)⟩ := by
  decide

/-- C4, amended.  A line whose first field is not `c`, `k` or `m` (or a
`c` line whose second field is not `delay`) falls through every branch of
the dispatch and is skipped silently; and playback of a log whose every
line parses without an uncaught exception runs to the end of the file and
sets the finished flag.  But a malformed line whose first field *is*
recognized (missing fields, or a field on which `int`/`float` fails)
raises and aborts playback, as the counterexample shows. -/
theorem C4_amended_unrecognized_lines_skipped (keyTable : List Char → Option Int) :
    (∀ (line : List Char) (p0 : List Char) (rest : List (List Char)),
        splitOnComma (pyStrip line) = p0 :: rest →
        ¬ p0 = "c".toList → ¬ p0 = "k".toList → ¬ p0 = "m".toList →
        parseLine keyTable line = .ok []) ∧
    (∀ (lines : List (List Char)) (flag0 : MacroFlag),
        (∀ l ∈ lines, (parseLine keyTable l).isOk = true) →
        (runMacroFile keyTable true lines flag0).error = none ∧
        (runMacroFile keyTable true lines flag0).flag = ⟨true⟩) := by
  constructor
  · intro line p0 rest hsplit h1 h2 h3
    unfold parseLine
    rw [hsplit]
    dsimp only
    rw [if_neg h1, if_neg h2, if_neg h3]
  · intro lines flag0 h
    have := runLinesGo_all_ok keyTable lines [] h
    simpa [runMacroFile] using this

/-- Witness for C4's amended theorem at a concrete log consisting of an
unrecognized line, an empty line, and a `c` line without `delay`. -/
theorem C4_amended_witness :
    (runMacroFile (fun _ => none) true
        ["z,1".toList, "".toList, "c,pause".toList] ⟨false⟩).error = none ∧
    (runMacroFile (fun _ => none) true
        ["z,1".toList, "".toList, "c,pause".toList] ⟨false⟩).flag = ⟨true⟩ :=
  (C4_amended_unrecognized_lines_skipped (fun _ => none)).2
    ["z,1".toList, "".toList, "c,pause".toList] ⟨false⟩ (by decide)

/-- C8.  Playing back an existing but empty event log injects nothing:
the line loop runs over zero lines and immediately sets the finished
flag, which `get_macro_finished` then reports as true. -/
theorem C8_empty_log_plays_as_completion :
    ∀ (keyTable : List Char → Option Int) (flag0 : MacroFlag),
      runMacroFile keyTable true [] flag0 = ⟨[], ⟨true⟩, none⟩ ∧
      getMacroFinished ⟨true⟩ = true := by
  intro keyTable flag0
  exact ⟨rfl, rfl⟩

/-- C9.  `load_macro_file` guards the copy with
`os.path.exists(path) and os.path.isfile(path)`; when the source path
names no regular file the function falls straight through: the active
macro file is neither replaced nor deleted and no error is raised (the
model is a total function). -/
theorem C9_load_missing_source_is_noop :
    ∀ (fs : List Char → Option (List Char)) (macroPath : List Char),
      fs macroPath = none → loadMacroFile fs macroPath = fs := by
  intro fs macroPath h
  unfold loadMacroFile
  rw [h]
  simp

/-- Witness for C9 on an empty file system. -/
theorem C9_witness :
    loadMacroFile (fun _ => none) "missing.ocrm".toList = (fun _ => none) :=
  C9_load_missing_source_is_noop (fun _ => none) "missing.ocrm".toList rfl

/-- C10.  Whenever `wait_for_finish` returns, the trailing unconditional
`self._macro_finished = False` assignment has run, so
`get_macro_finished` reads false immediately afterwards — and the polling
loop can only have exited because the flag was observed true (playback
signalled completion) or because the macro file had disappeared, so the
reset covers exactly those two cases. -/
theorem C10_wait_for_finish_resets_flag :
    ∀ (obs : ℕ → Bool × Bool) (fuel : ℕ) (st : MacroFlag) (i : ℕ),
      (waitForFinish obs fuel = some st → getMacroFinished st = false) ∧
      (waitLoopExit obs 0 fuel = some i → (obs i).1 = true ∨ (obs i).2 = false) := by
  intro obs fuel st i
  constructor
  · intro h
    unfold waitForFinish at h
    cases hw : waitLoopExit obs 0 fuel with
    | none => rw [hw] at h; simp at h
    | some j =>
      rw [hw] at h
      cases h
      rfl
  · exact waitLoopExit_reason obs fuel 0 i

/-- Witness for C10: an observer that reports the flag true at the first
check; the waiter exits at check 0 and the flag afterwards reads
false. -/
theorem C10_witness :
    getMacroFinished ⟨false⟩ = false ∧
    (((fun _ => (true, true) : ℕ → Bool × Bool) 0).1 = true ∨
      ((fun _ => (true, true) : ℕ → Bool × Bool) 0).2 = false) :=
  ⟨(C10_wait_for_finish_resets_flag (fun _ => (true, true)) 1 ⟨false⟩ 0).1 rfl,
   (C10_wait_for_finish_resets_flag (fun _ => (true, true)) 1 ⟨false⟩ 0).2 rfl⟩

/-- C6.  With the preclick toggle armed and a macro manager present,
`_thread_do_click` routes the pointer action through
`write_mouse_to_macro`, which appends exactly two lines — the fixed delay
line and the pointer line — and injects nothing; for a left click
(`"b1c"`, as passed by `_on_left_click`) at (100, 200) the lines are
`c,delay,0.9` and `m,100,200,b1c`. -/
theorem C6_armed_click_appends_two_lines :
    ∀ (st : GuiState) (x y : Int) (mouseEvent : List Char),
      st.armedToMacro = true → st.macroPresent = true →
      (threadDoClick st x y mouseEvent).log
          = st.log ++ writeMouseToLogLines x y mouseEvent ∧
      (threadDoClick st x y mouseEvent).injected = st.injected ∧
      writeMouseToLogLines 100 200 ("b1c".toList)
          = ["c,delay,0.9".toList, "m,100,200,b1c".toList] := by
  intro st x y mouseEvent h1 h2
  unfold threadDoClick
  rw [if_pos (And.intro h1 h2)]
  exact ⟨rfl, rfl, by decide⟩

/-- Witness for C6 at an armed state and the left click of the
specification's example. -/
theorem C6_witness :
    (threadDoClick ⟨true, true, false, false, [], []⟩ 100 200 ("b1c".toList)).log
        = ([] : List (List Char)) ++ writeMouseToLogLines 100 200 ("b1c".toList) ∧
    (threadDoClick ⟨true, true, false, false, [], []⟩ 100 200 ("b1c".toList)).injected
        = ([] : List AtspiEvent) ∧
    writeMouseToLogLines 100 200 ("b1c".toList)
        = ["c,delay,0.9".toList, "m,100,200,b1c".toList] :=
  C6_armed_click_appends_two_lines ⟨true, true, false, false, [], []⟩ 100 200
    ("b1c".toList) rfl rfl

/-- C3 counterexample.  The claim says that while send-key mode is active
a non-sentinel key event is forwarded live to the input-injection
interface when the controller is not armed.  The code never forwards:
`_on_send_key` contains no `generateKeyboardEvent` call and returns True
(consuming the event); it appends every non-F4-press event to the event
log whenever `self._macro` is set, without consulting `_save_to_macro`.
Concretely, in an unarmed state the press of `a` is recorded as the log
line `k,0,a,0` and nothing is injected. -/
theorem C3_counterexample_unarmed_key_recorded :
    onSendKey ⟨true, false, true, true, [], []⟩ ⟨.pressed, "a".toList⟩
      = ⟨true, false, true, true, ["k,0,a,0".toList], []⟩ := by decide

/-- C3, amended.  An F4 key *press* clears the overlay flag and
deregisters the listener unconditionally — regardless of the arming
state, which the handler never reads.  Every other key event (press of
another key, any release, any other event type) is never forwarded to the
live interface; it is appended to the event log as
`k,0,<symbol>,<phase>` whenever a macro manager is present — again
regardless of the arming state — and is dropped entirely otherwise. -/
theorem C3_amended_all_keys_recorded :
    ∀ (st : GuiState) (ev : KeyEv),
      (ev.type = .pressed → ev.string = "F4".toList →
        onSendKey st ev
          = { st with keyboardOverlayActive := false, listenerRegistered := false }) ∧
      (¬ (ev.type = .pressed ∧ ev.string = "F4".toList) →
        (onSendKey st ev).injected = st.injected ∧
        (st.macroPresent = true →
          (onSendKey st ev).log
            = st.log ++ [writeKeyboardToLogLine 0 ev.string (sendKeyEventTypeId ev.type)]) ∧
        (st.macroPresent = false → onSendKey st ev = st)) := by
  intro st ev
  constructor
  · intro h1 h2
    unfold onSendKey
    rw [if_pos (And.intro h1 h2)]
  · intro h
    unfold onSendKey
    rw [if_neg h]
    refine ⟨?_, ?_, ?_⟩
    · by_cases hm : st.macroPresent = true
      · rw [if_pos hm]
      · rw [if_neg hm]
    · intro hm
      rw [if_pos hm]
    · intro hm
      rw [if_neg (by simp [hm])]

/-- Witness for C3's amended theorem: an F4 release (not a press) in an
armed state is itself recorded to the log, and an F4 press exits the mode. -/
theorem C3_amended_witness :
    ((onSendKey ⟨true, true, true, true, [], []⟩ ⟨.released, "F4".toList⟩).injected
        = ([] : List AtspiEvent) ∧
      (onSendKey ⟨true, true, true, true, [], []⟩ ⟨.released, "F4".toList⟩).log
        = [writeKeyboardToLogLine 0 ("F4".toList)
            (sendKeyEventTypeId KeyEvType.released)]) ∧
    onSendKey ⟨true, true, true, true, [], []⟩ ⟨.pressed, "F4".toList⟩
      = ⟨true, true, false, false, [], []⟩ := by
  have h2 := (C3_amended_all_keys_recorded ⟨true, true, true, true, [], []⟩
      ⟨.released, "F4".toList⟩).2 (by decide)
  have h1 := (C3_amended_all_keys_recorded ⟨true, true, true, true, [], []⟩
      ⟨.pressed, "F4".toList⟩).1 rfl rfl
  exact ⟨⟨h2.1, h2.2.1 rfl⟩, h1⟩

/-- C7.  `get_color_string` is a total function on the model: every
failure path yields the literal `"unknown"` and no exception escapes.
In particular it returns `"unknown"` whenever the configured maximum
color count is below 1 (whatever the image contents), whenever a
dependency is missing, whenever the image or box is absent, and whenever
anything inside the `try` block fails (modelled by `colorReport`
returning `none`: bad box index, inverted crop box, empty palette). -/
theorem C7_color_failures_degrade_to_unknown :
    ∀ (enabled scipyAvailable webcolorsAvailable : Bool) (maxColors : Int)
      (pal : Palette) (box : Option BoxData) (index : ℕ) (img : Option PImage),
      (maxColors < 1 →
        getColorString enabled scipyAvailable webcolorsAvailable maxColors pal box index img
          = "unknown".toList) ∧
      (scipyAvailable = false →
        getColorString enabled scipyAvailable webcolorsAvailable maxColors pal box index img
          = "unknown".toList) ∧
      (webcolorsAvailable = false →
        getColorString enabled scipyAvailable webcolorsAvailable maxColors pal box index img
          = "unknown".toList) ∧
      (box = none →
        getColorString enabled scipyAvailable webcolorsAvailable maxColors pal box index img
          = "unknown".toList) ∧
      (img = none →
        getColorString enabled scipyAvailable webcolorsAvailable maxColors pal box index img
          = "unknown".toList) ∧
      (∀ (b : BoxData) (i : PImage), box = some b → img = some i →
        colorReport pal maxColors b index i = none →
        getColorString enabled scipyAvailable webcolorsAvailable maxColors pal box index img
          = "unknown".toList) := by
  intro enabled scipyAvailable webcolorsAvailable maxColors pal box index img
  refine ⟨?_, ?_, ?_, ?_, ?_, ?_⟩
  · intro h
    unfold getColorString
    split_ifs <;> rfl
  · intro h
    unfold getColorString
    split_ifs <;> simp_all
  · intro h
    unfold getColorString
    split_ifs <;> simp_all
  · intro h
    subst h
    unfold getColorString
    split_ifs <;> rcases img with _ | i <;> rfl
  · intro h
    subst h
    unfold getColorString
    split_ifs <;> rcases box with _ | b <;> rfl
  · intro b i hb hi hcr
    subst hb
    subst hi
    unfold getColorString
    split_ifs <;> first | rfl | (dsimp only; rw [hcr])

/-- Witness for C7: a disabled color count, and a box whose column lists
are empty (so the index lookup inside the `try` block fails). -/
theorem C7_witness :
    getColorString true true true 0 [] none 0 none = "unknown".toList ∧
    getColorString true true true 3 [] (some ⟨[], [], [], []⟩) 0
        (some ⟨1, 1, fun _ _ => (0, 0, 0)⟩) = "unknown".toList :=
  ⟨(C7_color_failures_degrade_to_unknown true true true 0 [] none 0 none).1
      (by decide),
   (C7_color_failures_degrade_to_unknown true true true 3 []
      (some ⟨[], [], [], []⟩) 0 (some ⟨1, 1, fun _ _ => (0, 0, 0)⟩)).2.2.2.2.2
      ⟨[], [], [], []⟩ ⟨1, 1, fun _ _ => (0, 0, 0)⟩ rfl rfl (by decide)⟩

/-! Section: Lemmas for the color-percentage bound (claim C5) -/

theorem mem_firstOcc {y : RGB} : ∀ l : List RGB, y ∈ firstOcc l ↔ y ∈ l := by
  intro l
  induction l with
  | nil => simp [firstOcc]
  | cons x xs ih =>
    by_cases hyx : y = x
    · simp [firstOcc, hyx]
    · simp [firstOcc, hyx, List.mem_filter, ih]

theorem firstOcc_nodup : ∀ l : List RGB, (firstOcc l).Nodup := by
  intro l
  induction l with
  | nil => simp [firstOcc]
  | cons x xs ih =>
    refine List.nodup_cons.2 ⟨?_, ih.filter _⟩
    intro hx
    have := List.of_mem_filter hx
    simp at this

/-- The boolean equality tests of the two `BEq` instances on `RGB` (the
one derived from decidable equality and the component-wise product one)
agree. -/
theorem beq_irrel (y x : RGB) :
    (@BEq.beq RGB instBEqOfDecidableEq y x) = (y == x) := by
  have h1 : (@BEq.beq RGB instBEqOfDecidableEq y x) = decide (y = x) := rfl
  rw [h1]
  by_cases h : y = x
  · simp [h]
  · simp [h]

/-- Model of `List.count` does not depend on which of the two instances is used. -/
theorem count_beq_irrel (x : RGB) (l : List RGB) :
    @List.count RGB instBEqOfDecidableEq x l = l.count x := by
  rw [@List.count_eq_countP RGB instBEqOfDecidableEq x l, List.count_eq_countP]
  congr 1
  funext b
  exact beq_irrel b x

theorem tallyColors_snd_sum (l : List RGB) :
    ((tallyColors l).map (fun p => p.2)).sum = l.length := by
  have hperm : (firstOcc l).Perm l.dedup :=
    (List.perm_ext_iff_of_nodup (firstOcc_nodup l) l.nodup_dedup).2
      (fun a => by rw [mem_firstOcc, List.mem_dedup])
  have hfun : (fun x => l.count x)
      = fun x => @List.count RGB instBEqOfDecidableEq x l :=
    funext (fun x => (count_beq_irrel x l).symm)
  calc ((tallyColors l).map (fun p => p.2)).sum
      = ((firstOcc l).map (fun x => l.count x)).sum := by
        simp [tallyColors, List.map_map, Function.comp_def]
    _ = (l.dedup.map (fun x => l.count x)).sum := (hperm.map _).sum_eq
    _ = l.length := by rw [hfun]; exact List.sum_map_count_dedup_eq_length l

theorem addCount_snd_sum :
    ∀ (acc : List (List Char × ℕ)) (k : List Char) (v : ℕ),
      ((addCount acc k v).map (fun p => p.2)).sum
        = (acc.map (fun p => p.2)).sum + v := by
  intro acc k v
  induction acc with
  | nil => simp [addCount]
  | cons p rest ih =>
    by_cases hk : p.1 = k
    · simp only [addCount, if_pos hk]
      simp
      omega
    · simp only [addCount, if_neg hk]
      simp [ih]
      omega

theorem addCount_keys :
    ∀ (acc : List (List Char × ℕ)) (k : List Char) (v : ℕ),
      (addCount acc k v).map (fun p => p.1)
        = if k ∈ acc.map (fun p => p.1) then acc.map (fun p => p.1)
          else acc.map (fun p => p.1) ++ [k] := by
  intro acc k v
  induction acc with
  | nil => simp [addCount]
  | cons p rest ih =>
    by_cases hk : p.1 = k
    · simp [addCount, hk]
    · have hne : ¬ k = p.1 := fun h => hk h.symm
      by_cases hmem : k ∈ rest.map (fun p => p.1)
      · simp [addCount, hk, hmem, ih, hne]
      · simp [addCount, hk, hmem, ih, hne]

theorem addCount_keys_nodup
    {acc : List (List Char × ℕ)} {k : List Char} {v : ℕ}
    (h : (acc.map (fun p => p.1)).Nodup) :
    ((addCount acc k v).map (fun p => p.1)).Nodup := by
  rw [addCount_keys]
  by_cases hmem : k ∈ acc.map (fun p => p.1)
  · simpa [hmem] using h
  · simp [hmem, List.nodup_append, h]

theorem buildByColorName_snd_sum (pal : Palette) :
    ∀ (cs : List (RGB × ℕ)) (acc r : List (List Char × ℕ)),
      buildByColorName pal cs acc = some r →
      (r.map (fun p => p.2)).sum
        = (acc.map (fun p => p.2)).sum + (cs.map (fun p => p.2)).sum := by
  intro cs
  induction cs with
  | nil =>
    intro acc r h
    simp only [buildByColorName] at h
    cases h
    simp
  | cons cn rest ih =>
    intro acc r h
    simp only [buildByColorName] at h
    cases hnn : nearestName pal cn.1 with
    | none => rw [hnn] at h; cases h
    | some nm =>
      rw [hnn] at h
      have := ih (addCount acc nm cn.2) r h
      rw [this, addCount_snd_sum]
      simp
      omega

theorem buildByColorName_keys_nodup (pal : Palette) :
    ∀ (cs : List (RGB × ℕ)) (acc r : List (List Char × ℕ)),
      (acc.map (fun p => p.1)).Nodup →
      buildByColorName pal cs acc = some r →
      (r.map (fun p => p.1)).Nodup := by
  intro cs
  induction cs with
  | nil =>
    intro acc r ha h
    simp only [buildByColorName] at h
    cases h
    exact ha
  | cons cn rest ih =>
    intro acc r ha h
    simp only [buildByColorName] at h
    cases hnn : nearestName pal cn.1 with
    | none => rw [hnn] at h; cases h
    | some nm =>
      rw [hnn] at h
      exact ih (addCount acc nm cn.2) r (addCount_keys_nodup ha) h

theorem insertByCountDesc_perm (x : List Char × ℕ) :
    ∀ l : List (List Char × ℕ), (insertByCountDesc x l).Perm (x :: l) := by
  intro l
  induction l with
  | nil => simp [insertByCountDesc]
  | cons y ys ih =>
    by_cases hxy : x.2 < y.2
    · simp only [insertByCountDesc, if_pos hxy]
      exact (ih.cons y).trans (List.Perm.swap x y ys)
    · simp [insertByCountDesc, hxy]

theorem sortByCountDesc_perm :
    ∀ l : List (List Char × ℕ), (sortByCountDesc l).Perm l := by
  intro l
  induction l with
  | nil => simp [sortByCountDesc]
  | cons x xs ih =>
    exact (insertByCountDesc_perm x (sortByCountDesc xs)).trans (ih.cons x)

theorem lookup_eq_of_nodup_keys :
    ∀ (l : List (List Char × ℕ)) (k : List Char) (v : ℕ),
      (l.map (fun p => p.1)).Nodup → (k, v) ∈ l → l.lookup k = some v := by
  intro l
  induction l with
  | nil => intro k v _ hmem; simp at hmem
  | cons p rest ih =>
    intro k v hnd hmem
    have hnd1 : p.1 ∉ rest.map (fun q => q.1) := by
      simpa using (List.nodup_cons.1 hnd).1
    have hnd2 := (List.nodup_cons.1 hnd).2
    rcases List.mem_cons.1 hmem with heq | hmem'
    · rw [← heq]
      simp [List.lookup]
    · by_cases hk : k = p.1
      · exfalso
        apply hnd1
        rw [← hk]
        exact List.mem_map.2 ⟨(k, v), hmem', rfl⟩
      · have hbeq : (k == p.1) = false := beq_eq_false_iff_ne.2 hk
        simp only [List.lookup, hbeq]
        exact ih k v hnd2 hmem'

theorem colorLoop_area_zero (bcn : List (List Char × ℕ)) :
    ∀ tops, (colorLoop 0 bcn tops).2 = [] := by
  intro tops
  induction tops with
  | nil => rfl
  | cons p rest ih =>
    cases hl : bcn.lookup p.1 <;> simp [colorLoop, hl, ih]

theorem colorLoop_pos (area : ℤ) (bcn : List (List Char × ℕ)) :
    ∀ tops pc, pc ∈ (colorLoop area bcn tops).2 → 0 < pc := by
  intro tops
  induction tops with
  | nil => intro pc h; simp [colorLoop] at h
  | cons p rest ih =>
    intro pc h
    simp only [colorLoop] at h
    cases hl : bcn.lookup p.1 with
    | none => rw [hl] at h; exact ih pc h
    | some count =>
      rw [hl] at h
      dsimp only at h
      by_cases hA : ¬ area = 0
      · rw [if_pos hA] at h
        by_cases hp : 0 < roundHalfEvenInt ((count : ℤ) * 100) area
        · rw [if_pos hp] at h
          rcases List.mem_cons.1 h with heq | hmem
          · rw [heq]; exact hp
          · exact ih pc hmem
        · rw [if_neg hp] at h
          exact ih pc h
      · rw [if_neg hA] at h
        exact ih pc h

theorem roundHalfEvenInt_two_mul_le (a b : ℤ) (hb : 0 < b) :
    2 * roundHalfEvenInt a b * b ≤ 2 * a + b := by
  have hmod : 0 ≤ a % b := Int.emod_nonneg a (ne_of_gt hb)
  have hlt : a % b < b := Int.emod_lt_of_pos a hb
  have hdiv : b * (a / b) + a % b = a := Int.ediv_add_emod a b
  simp only [roundHalfEvenInt]
  split_ifs with h1 h2 h3 <;> nlinarith [hdiv, hmod, hlt]

theorem colorLoop_sum_le (area : ℤ) (hA : 0 < area) (bcn : List (List Char × ℕ)) :
    ∀ tops, (∀ p ∈ tops, bcn.lookup p.1 = some p.2) →
      2 * (colorLoop area bcn tops).2.sum * area
        ≤ 200 * (tops.map (fun p => (p.2 : ℤ))).sum
            + ((colorLoop area bcn tops).2.length : ℤ) * area := by
  intro tops
  induction tops with
  | nil => intro _; simp [colorLoop]
  | cons p rest ih =>
    intro h
    have hl := h p (List.mem_cons_self p rest)
    have hrest := ih (fun q hq => h q (List.mem_cons_of_mem p hq))
    have hAne : ¬ area = 0 := ne_of_gt hA
    simp only [colorLoop, hl]
    rw [if_pos hAne]
    by_cases hp : 0 < roundHalfEvenInt ((p.2 : ℤ) * 100) area
    · rw [if_pos hp]
      have hentry := roundHalfEvenInt_two_mul_le ((p.2 : ℤ) * 100) area hA
      simp only [List.map_cons, List.sum_cons, List.length_cons]
      push_cast
      nlinarith [hentry, hrest]
    · rw [if_neg hp]
      have hc : (0 : ℤ) ≤ (p.2 : ℤ) := Int.natCast_nonneg p.2
      simp only [List.map_cons, List.sum_cons]
      nlinarith [hrest, hc]

theorem sum_snd_cast :
    ∀ l : List (List Char × ℕ),
      (l.map (fun p => ((p.2 : ℕ) : ℤ))).sum = (((l.map (fun p => p.2)).sum : ℕ) : ℤ) := by
  intro l
  induction l with
  | nil => simp
  | cons p rest ih => simp [ih]

theorem cropData_length (img : PImage) (left top : Int) (w h : ℕ) :
    (cropData img left top w h).length = h * w := by
  unfold cropData
  rw [List.length_flatten]
  simp [List.map_map, Function.comp_def]

/-- The concrete palette of the C5 counterexample: three pure reference
colors. -/
def cexPalette : Palette :=
  [("r".toList, (255, 0, 0)), ("g".toList, (0, 255, 0)), ("b".toList, (0, 0, 255))]

/-- The concrete 4×2 image of the C5 counterexample: three red pixels,
three green pixels, two blue pixels. -/
def cexImage : PImage :=
  ⟨4, 2, fun x y =>
    if y = 0 then (if x ≤ 2 then (255, 0, 0) else (0, 255, 0))
    else if x ≤ 1 then (0, 255, 0) else (0, 0, 255)⟩

/-- The box dict of the C5 counterexample: one word filling the image. -/
def cexBox : BoxData :=
  ⟨[4], [2], [0], [0]⟩

/-- C5 counterexample.  The claim says the reported percentages sum to at
most 100.  They do not: the box area is 8, the name counts are 3/3/2, the
exact percentages are 37.5/37.5/25, and Python's `round` takes 37.5 to 38
(both here and in the float computation, where 37.5 is exact), so the
reported percentages are 38 + 38 + 25 = 101 > 100. -/
theorem C5_counterexample_percentages_sum_101 :
    getColorString true true true 3 cexPalette (some cexBox) 0 (some cexImage)
      = "r: 38 %, g: 38 %, b: 25 %".toList ∧
    colorReport cexPalette 3 cexBox 0 cexImage
      = some ("r: 38 %, g: 38 %, b: 25 %".toList, [38, 38, 25]) ∧
    ¬ ([38, 38, 25] : List ℤ).sum ≤ 100 := by
  refine ⟨by decide, by decide, by decide⟩

/-- C5, amended.  What the code guarantees: the *exact* percentages of
the reported entries sum to at most 100 (their pixel counts are disjoint
parts of the box-area total, against which every percentage is computed —
pixels of omitted entries included), and each reported rounded percentage
overshoots its exact value by at most 1/2; hence twice the reported sum
is at most 200 plus the number of reported entries (for at most 3 entries
the reported sum is at most 101, as in the counterexample).  Entries
whose percentage rounds to 0 are indeed omitted while their pixels still
count toward the denominator. -/
theorem C5_amended_percentage_sum_bound :
    ∀ (pal : Palette) (maxColors : Int) (box : BoxData) (index : ℕ)
      (img : PImage) (out : List Char × List ℤ),
      colorReport pal maxColors box index img = some out →
      2 * out.2.sum ≤ 200 + (out.2.length : ℤ) ∧ ∀ pc ∈ out.2, 0 < pc := by
  intro pal maxColors box index img out h
  unfold colorReport at h
  split at h
  case h_2 => cases h
  case h_1 w hh left top heqw heqh heql heqt =>
    split at h
    case isFalse => cases h
    case isTrue hwh =>
      dsimp only at h
      split at h
      case h_1 => cases h
      case h_2 bcn heqB =>
        cases h
        dsimp only
        by_cases hA : w * hh = 0
        · rw [hA, colorLoop_area_zero]
          simp
        · have hApos : 0 < w * hh :=
            lt_of_le_of_ne (mul_nonneg hwh.1 hwh.2) (Ne.symm hA)
          refine ⟨?_, fun pc hpc => colorLoop_pos _ bcn _ pc hpc⟩
          have hkeys : (bcn.map (fun p => p.1)).Nodup :=
            buildByColorName_keys_nodup pal _ [] bcn (by simp) heqB
          set tops := (sortByCountDesc bcn).take
            (min maxColors.toNat (sortByCountDesc bcn).length) with htops
          have hlk : ∀ p ∈ tops, bcn.lookup p.1 = some p.2 := by
            intro p hp
            have hmem : p ∈ bcn :=
              (sortByCountDesc_perm bcn).mem_iff.1
                ((List.take_sublist _ _).subset hp)
            exact lookup_eq_of_nodup_keys bcn p.1 p.2 hkeys (by simpa using hmem)
          have hbound := colorLoop_sum_le (w * hh) hApos bcn tops hlk
          -- the reported counts sum to at most the box area
          have hsum_nat : ((tops.map (fun p => p.2)).sum : ℕ)
              ≤ ((bcn.map (fun p => p.2)).sum : ℕ) := by
            have hsub : (tops.map (fun p => p.2)).Sublist
                ((sortByCountDesc bcn).map (fun p => p.2)) :=
              (List.take_sublist _ _).map _
            have h1 : (tops.map (fun p => p.2)).sum
                ≤ ((sortByCountDesc bcn).map (fun p => p.2)).sum :=
              hsub.sum_le_sum (fun a _ => Nat.zero_le a)
            have h2 : ((sortByCountDesc bcn).map (fun p => p.2)).sum
                = (bcn.map (fun p => p.2)).sum :=
              ((sortByCountDesc_perm bcn).map _).sum_eq
            omega
          have hbcn_sum : (bcn.map (fun p => p.2)).sum
              = (cropData img left top w.toNat hh.toNat).length := by
            have := buildByColorName_snd_sum pal _ [] bcn heqB
            simpa [tallyColors_snd_sum] using this
          have harea : (((bcn.map (fun p => p.2)).sum : ℕ) : ℤ) = w * hh := by
            rw [hbcn_sum, cropData_length]
            push_cast [Int.toNat_of_nonneg hwh.1, Int.toNat_of_nonneg hwh.2]
            ring
          have hsum_int : (tops.map (fun p => (p.2 : ℤ))).sum ≤ w * hh := by
            rw [sum_snd_cast, ← harea]
            exact_mod_cast hsum_nat
          have hfinal : 2 * (colorLoop (w * hh) bcn tops).2.sum * (w * hh)
              ≤ (200 + ((colorLoop (w * hh) bcn tops).2.length : ℤ)) * (w * hh) := by
            nlinarith [hbound, hsum_int]
          exact le_of_mul_le_mul_right hfinal hApos

/-- Witness for C5's amended theorem at the counterexample input, where
the reported percentages are 38, 38, 25: twice their sum, 202, is at most
200 plus the number of entries, 203. -/
theorem C5_amended_witness :
    2 * (([38, 38, 25] : List ℤ)).sum ≤ 200 + ((([38, 38, 25] : List ℤ)).length : ℤ) ∧
    ∀ pc ∈ ([38, 38, 25] : List ℤ), 0 < pc :=
  C5_amended_percentage_sum_bound cexPalette 3 cexBox 0 cexImage
    ("r: 38 %, g: 38 %, b: 25 %".toList, [38, 38, 25]) (by decide)

end Ocrdesktop
